import Mathlib

/-!
# GraphMat `Graph.cpp`: vertex id mapping and per-vertex accessors

Shallow embedding of `Graph<V,E>` from `src/Graph.cpp`.

* A C++ `int` is a 32-bit two's-complement integer, carried as an `Int` between
  `-2147483648` and `2147483647`. Every `+`, `-` and `*` of the source is followed
  by `wrapInt`, the reduction modulo `2^32` into that range, so that an `int`
  product such as `omp_get_max_threads() * 16 * nsegments` takes the value the
  compiled code computes.
* The operators `/` and `%` truncate toward zero (`Int.tdiv`, `Int.tmod`). A
  division that the machine cannot carry out (zero divisor, or `INT_MIN / -1`) is
  observable: every function that divides returns `Option`, and `none` means that
  such a division was evaluated.
* The call `omp_get_max_threads()` is an ambient runtime query; every function that
  makes it takes its current value as the explicit argument `threads`.
-/

namespace GraphMat

/-- Reduction of an integer to the 32-bit two's-complement value with the same
residue modulo `2^32`: the value of an `int` expression after the arithmetic of
the source. -/
def wrapInt (x : Int) : Int :=
  (x + 2147483648) % 4294967296 - 2147483648

/-- The C++ operator `a / b` on `int`: truncation toward zero; `none` for a zero
divisor and for `INT_MIN / -1`, whose quotient is not an `int`. -/
def cdiv (a b : Int) : Option Int :=
  if b = 0 ∨ (a = -2147483648 ∧ b = -1) then none else some (Int.tdiv a b)

/-- The C++ operator `a % b` on `int`: remainder of the truncating division;
`none` for a zero divisor and for `INT_MIN % -1`. -/
def cmod (a b : Int) : Option Int :=
  if b = 0 ∨ (a = -2147483648 ∧ b = -1) then none else some (Int.tmod a b)

/-- The initialiser `omp_get_max_threads() * 16 * nsegments` of the local
`int npartitions` (Graph.cpp lines 103 and 123), as 32-bit arithmetic. -/
def npartitions (threads nsegments : Int) : Int :=
  wrapInt (wrapInt (threads * 16) * nsegments)

/-- Embedding of `Graph::vertexToNative` (Graph.cpp lines 97-116). The member
`vertexID_randomization` and the value of `omp_get_max_threads()` are explicit
arguments. -/
def vertexToNative (vertexID_randomization : Bool) (threads : Int)
    (vertex nsegments len : Int) : Option Int :=
  if vertexID_randomization then
    let v := wrapInt (vertex - 1)
    let npartitions := npartitions threads nsegments
    (cdiv len npartitions).bind fun height =>
    let vmax := wrapInt (height * npartitions)
    if v ≥ vmax then
      some (wrapInt (v + 1))
    else
      (cmod v npartitions).bind fun col =>
      (cdiv v npartitions).bind fun row =>
      some (wrapInt (wrapInt (row + wrapInt (col * height)) + 1))
  else
    some vertex

/-- Embedding of `Graph::nativeToVertex` (Graph.cpp lines 118-136). -/
def nativeToVertex (vertexID_randomization : Bool) (threads : Int)
    (vertex nsegments len : Int) : Option Int :=
  if vertexID_randomization then
    let v := wrapInt (vertex - 1)
    let npartitions := npartitions threads nsegments
    (cdiv len npartitions).bind fun height =>
    let vmax := wrapInt (height * npartitions)
    if v ≥ vmax then
      some (wrapInt (v + 1))
    else
      (cdiv v height).bind fun col =>
      (cmod v height).bind fun row =>
      some (wrapInt (wrapInt (col + wrapInt (row * npartitions)) + 1))
  else
    some vertex

/-! ## The graph object and its per-vertex accessors -/

/-- Modelled from the spec: the partitioned vector store `GraphPad::SpVec`, whose
declaration is not part of `Graph.cpp`. It holds one value per native id;
`set(index, value)` changes the entry at `index` only, `get(index)` returns the
entry last written there. -/
structure SpVec (V : Type) where
  data : Int → V

/-- Store operation `set(index, value)`. -/
def SpVec.set {V : Type} (s : SpVec V) (idx : Int) (val : V) : SpVec V :=
  ⟨fun i => if i = idx then val else s.data i⟩

/-- Store operation `get(index)`. -/
def SpVec.get {V : Type} (s : SpVec V) (idx : Int) : V :=
  s.data idx

/-- The data members of `class Graph` (Graph.cpp lines 60-70). `V` is the vertex
property type, `M` the type of the tiled sparse matrices `A` and `AT`. -/
structure Graph (V M : Type) where
  nvertices : Int
  nnz : Int
  vertexpropertyowner : Int
  tiles_per_dim : Int
  vertexID_randomization : Bool
  A : M
  AT : M
  vertexproperty : SpVec V
  active : SpVec Bool

/-- Embedding of `Graph::setActive` (Graph.cpp lines 217-222). -/
def setActive {V M : Type} (g : Graph V M) (threads v : Int) : Option (Graph V M) :=
  (vertexToNative g.vertexID_randomization threads v g.tiles_per_dim g.nvertices).bind
    fun v_new => some { g with active := g.active.set v_new true }

/-- Embedding of `Graph::setInactive` (Graph.cpp lines 224-229). -/
def setInactive {V M : Type} (g : Graph V M) (threads v : Int) : Option (Graph V M) :=
  (vertexToNative g.vertexID_randomization threads v g.tiles_per_dim g.nvertices).bind
    fun v_new => some { g with active := g.active.set v_new false }

/-- Embedding of `Graph::shareVertexProperty` (Graph.cpp lines 243-248); `g` is the receiver
and `other` the argument. -/
def shareVertexProperty {V M : Type} (g other : Graph V M) : Graph V M :=
  { g with vertexproperty := other.vertexproperty, vertexpropertyowner := 0 }

/-- Embedding of `Graph::setVertexproperty` (Graph.cpp lines 259-264). -/
def setVertexproperty {V M : Type} (g : Graph V M) (threads v : Int) (val : V) :
    Option (Graph V M) :=
  (vertexToNative g.vertexID_randomization threads v g.tiles_per_dim g.nvertices).bind
    fun v_new => some { g with vertexproperty := g.vertexproperty.set v_new val }

/-- Embedding of `Graph::getVertexproperty` (Graph.cpp lines 296-303). -/
def getVertexproperty {V M : Type} (g : Graph V M) (threads v : Int) : Option V :=
  (vertexToNative g.vertexID_randomization threads v g.tiles_per_dim g.nvertices).bind
    fun v_new => some (g.vertexproperty.get v_new)

/-! ## Reference definitions taken from the specification -/

/-- Reference definition of the forward map in the specification's words
(section 4.1): `npartitions = parallelism × 16 × partitionGridDim`,
`height = paddedCount div npartitions`, `vmax = height × npartitions`; a
0-indexed id at or above `vmax` passes through unchanged; a 0-indexed id below
`vmax` has `col = id mod npartitions`, `row = id div npartitions` and is
re-emitted as `row + col × height`, then made 1-indexed again. -/
def forwardSpec (parallelism partitionGridDim paddedCount id : Int) : Int :=
  let npartitions := parallelism * 16 * partitionGridDim
  let height := paddedCount / npartitions
  let vmax := height * npartitions
  let id0 := id - 1
  if vmax ≤ id0 then id
  else
    let col := id0 % npartitions
    let row := id0 / npartitions
    row + col * height + 1

/-- The block of `height` consecutive native ids with index `b`, in 1-indexed ids
`b * height + 1, ..., (b + 1) * height`: whether the result `r` of a mapper call
is a native id of that block. -/
def inNativeBlock (height b : Int) (r : Option Int) : Bool :=
  match r with
  | some w => decide (b * height < w ∧ w ≤ (b + 1) * height)
  | none => false

/-! ## Concrete graphs used as test inputs -/

/-- A graph of 100 vertices on a 1 × 1 grid with randomization enabled; the
property stored at native id `i` is `i` itself. -/
def sampleGraph100 : Graph Int Unit :=
  { nvertices := 100, nnz := 0, vertexpropertyowner := 1, tiles_per_dim := 1,
    vertexID_randomization := true, A := (), AT := (),
    vertexproperty := ⟨fun i => i⟩, active := ⟨fun _ => false⟩ }

/-- A graph of 200 vertices on a 1 × 1 grid with randomization enabled and all
properties 0. -/
def sampleGraph200 : Graph Int Unit :=
  { nvertices := 200, nnz := 0, vertexpropertyowner := 1, tiles_per_dim := 1,
    vertexID_randomization := true, A := (), AT := (),
    vertexproperty := ⟨fun _ => 0⟩, active := ⟨fun _ => false⟩ }

/-! ## 32-bit arithmetic -/

theorem wrapInt_eq (x : Int) (h1 : -2147483648 ≤ x) (h2 : x ≤ 2147483647) :
    wrapInt x = x := by
  unfold wrapInt
  omega

theorem wrapInt_range (x : Int) :
    -2147483648 ≤ wrapInt x ∧ wrapInt x ≤ 2147483647 := by
  unfold wrapInt
  omega

theorem wrapInt_mul_left (a n : Int) : wrapInt (wrapInt a * n) = wrapInt (a * n) := by
  have hk : wrapInt a = a + 4294967296 * (-((a + 2147483648) / 4294967296)) := by
    unfold wrapInt
    omega
  have he : (a + 4294967296 * (-((a + 2147483648) / 4294967296))) * n + 2147483648
      = a * n + 2147483648 + 4294967296 * (-((a + 2147483648) / 4294967296) * n) := by
    ring
  rw [hk]
  unfold wrapInt
  rw [he, Int.add_mul_emod_self_left]

theorem npartitions_eq_wrap (threads nsegments : Int) :
    npartitions threads nsegments = wrapInt (threads * 16 * nsegments) := by
  unfold npartitions
  exact wrapInt_mul_left (threads * 16) nsegments

theorem npartitions_of_fits (threads nsegments : Int)
    (h1 : -2147483648 ≤ threads * 16 * nsegments)
    (h2 : threads * 16 * nsegments ≤ 2147483647) :
    npartitions threads nsegments = threads * 16 * nsegments := by
  rw [npartitions_eq_wrap, wrapInt_eq _ h1 h2]

theorem npartitions_mod_sixteen (threads nsegments : Int) :
    npartitions threads nsegments % 16 = 0 := by
  have h1 : threads * 16 * nsegments = 16 * (threads * nsegments) := by ring
  have h2 : (threads * 16 * nsegments) % 16 = 0 := by
    rw [h1]; exact Int.mul_emod_right 16 _
  rw [npartitions_eq_wrap]
  generalize threads * 16 * nsegments = m at h2
  unfold wrapInt
  omega

theorem cdiv_of_nonneg (a b : Int) (ha : 0 ≤ a) (hb : 0 < b) : cdiv a b = some (a / b) := by
  unfold cdiv
  rw [if_neg (by omega), Int.tdiv_eq_ediv ha hb.le]

theorem cmod_of_nonneg (a b : Int) (ha : 0 ≤ a) (hb : 0 < b) : cmod a b = some (a % b) := by
  unfold cmod
  rw [if_neg (by omega), Int.tmod_eq_emod ha hb.le]

/-! ## Arithmetic of the row-major / column-major transposition -/

theorem transpose_nonneg (a b x : Int) (ha : 0 < a) (hb : 0 < b) (h0 : 0 ≤ x) :
    0 ≤ x / a + x % a * b := by
  have h1 : 0 ≤ x / a := Int.ediv_nonneg h0 ha.le
  have h2 : 0 ≤ x % a := Int.emod_nonneg x ha.ne'
  have h3 : 0 ≤ x % a * b := Int.mul_nonneg h2 hb.le
  omega

theorem transpose_lt (a b x : Int) (ha : 0 < a) (hb : 0 < b) (hx : x < a * b) :
    x / a + x % a * b < a * b := by
  have h1 : x / a < b := Int.ediv_lt_of_lt_mul ha (by rw [Int.mul_comm]; exact hx)
  have h2 : x % a < a := Int.emod_lt_of_pos x ha
  have h3 : x % a * b ≤ (a - 1) * b :=
    Int.mul_le_mul_of_nonneg_right (by omega) hb.le
  have h4 : (a - 1) * b = a * b - b := by ring
  omega

theorem transpose_div (a b x : Int) (ha : 0 < a) (h0 : 0 ≤ x) (hx : x < a * b) :
    (x / a + x % a * b) / b = x % a := by
  have hb : 0 < b := by
    by_contra hb
    have : a * b ≤ 0 := Int.mul_nonpos_of_nonneg_of_nonpos ha.le (by omega)
    omega
  have h1 : x / a < b := Int.ediv_lt_of_lt_mul ha (by rw [Int.mul_comm]; exact hx)
  have h2 : 0 ≤ x / a := Int.ediv_nonneg h0 ha.le
  rw [Int.add_mul_ediv_right _ _ hb.ne', Int.ediv_eq_zero_of_lt h2 h1, Int.zero_add]

theorem transpose_mod (a b x : Int) (ha : 0 < a) (h0 : 0 ≤ x) (hx : x < a * b) :
    (x / a + x % a * b) % b = x / a := by
  have h1 : x / a < b := Int.ediv_lt_of_lt_mul ha (by rw [Int.mul_comm]; exact hx)
  have h2 : 0 ≤ x / a := Int.ediv_nonneg h0 ha.le
  rw [Int.add_mul_emod_self, Int.emod_eq_of_lt h2 h1]

theorem transpose_transpose (a b x : Int) (ha : 0 < a) (h0 : 0 ≤ x) (hx : x < a * b) :
    (x / a + x % a * b) / b + (x / a + x % a * b) % b * a = x := by
  rw [transpose_div a b x ha h0 hx, transpose_mod a b x ha h0 hx]
  have := Int.emod_add_ediv x a
  have h : a * (x / a) = x / a * a := Int.mul_comm _ _
  omega

theorem height_mul_le (np len : Int) (hnp : 0 < np) :
    len / np * np ≤ len := by
  have := Int.emod_add_ediv len np
  have h1 : 0 ≤ len % np := Int.emod_nonneg len hnp.ne'
  have h : np * (len / np) = len / np * np := Int.mul_comm _ _
  omega

theorem height_pos_of_lt (np len x : Int) (hnp : 0 < np) (h0 : 0 ≤ x)
    (hx : x < len / np * np) : 0 < len / np := by
  by_contra hh
  have : len / np * np ≤ 0 := Int.mul_nonpos_of_nonpos_of_nonneg (by omega) hnp.le
  omega


/-! ## Closed forms of the two mappers on their intended domain -/

theorem fwd_closed_form (threads vertex nsegments len : Int)
    (hnp : 0 < npartitions threads nsegments) (hlen : 0 ≤ len) (hlmax : len ≤ 2147483647)
    (hv : 1 ≤ vertex) (hvmax : vertex ≤ 2147483647) :
    vertexToNative true threads vertex nsegments len =
      some (if len / npartitions threads nsegments * npartitions threads nsegments ≤ vertex - 1
        then vertex
        else (vertex - 1) / npartitions threads nsegments
          + (vertex - 1) % npartitions threads nsegments * (len / npartitions threads nsegments)
          + 1) := by
  simp only [vertexToNative, if_true, ge_iff_le]
  generalize npartitions threads nsegments = np at hnp ⊢
  have hm := height_mul_le np len hnp
  have hh0 : 0 ≤ len / np := Int.ediv_nonneg hlen hnp.le
  have hvm0 : 0 ≤ len / np * np := Int.mul_nonneg hh0 hnp.le
  rw [wrapInt_eq (vertex - 1) (by omega) (by omega), cdiv_of_nonneg len np hlen hnp,
    Option.some_bind, wrapInt_eq (len / np * np) (by omega) (by omega)]
  by_cases hge : len / np * np ≤ vertex - 1
  · rw [if_pos hge, if_pos hge, wrapInt_eq (vertex - 1 + 1) (by omega) (by omega)]
    congr 1
    omega
  · rw [if_neg hge, if_neg hge, cmod_of_nonneg (vertex - 1) np (by omega) hnp,
      cdiv_of_nonneg (vertex - 1) np (by omega) hnp, Option.some_bind, Option.some_bind]
    have hx : vertex - 1 < np * (len / np) := by rw [Int.mul_comm]; omega
    have hh := height_pos_of_lt np len (vertex - 1) hnp (by omega) (by omega)
    have h1 : 0 ≤ (vertex - 1) / np := Int.ediv_nonneg (by omega) hnp.le
    have h2 : 0 ≤ (vertex - 1) % np * (len / np) :=
      Int.mul_nonneg (Int.emod_nonneg _ hnp.ne') hh.le
    have h3 := transpose_lt np (len / np) (vertex - 1) hnp hh hx
    have h4 : np * (len / np) = len / np * np := Int.mul_comm _ _
    rw [wrapInt_eq ((vertex - 1) % np * (len / np)) (by omega) (by omega),
      wrapInt_eq ((vertex - 1) / np + (vertex - 1) % np * (len / np)) (by omega) (by omega),
      wrapInt_eq _ (by omega) (by omega)]

theorem inv_closed_form (threads vertex nsegments len : Int)
    (hnp : 0 < npartitions threads nsegments) (hlen : 0 ≤ len) (hlmax : len ≤ 2147483647)
    (hv : 1 ≤ vertex) (hvmax : vertex ≤ 2147483647) :
    nativeToVertex true threads vertex nsegments len =
      some (if len / npartitions threads nsegments * npartitions threads nsegments ≤ vertex - 1
        then vertex
        else (vertex - 1) / (len / npartitions threads nsegments)
          + (vertex - 1) % (len / npartitions threads nsegments) * npartitions threads nsegments
          + 1) := by
  simp only [nativeToVertex, if_true, ge_iff_le]
  generalize npartitions threads nsegments = np at hnp ⊢
  have hm := height_mul_le np len hnp
  have hh0 : 0 ≤ len / np := Int.ediv_nonneg hlen hnp.le
  have hvm0 : 0 ≤ len / np * np := Int.mul_nonneg hh0 hnp.le
  rw [wrapInt_eq (vertex - 1) (by omega) (by omega), cdiv_of_nonneg len np hlen hnp,
    Option.some_bind, wrapInt_eq (len / np * np) (by omega) (by omega)]
  by_cases hge : len / np * np ≤ vertex - 1
  · rw [if_pos hge, if_pos hge, wrapInt_eq (vertex - 1 + 1) (by omega) (by omega)]
    congr 1
    omega
  · have hh := height_pos_of_lt np len (vertex - 1) hnp (by omega) (by omega)
    rw [if_neg hge, if_neg hge, cdiv_of_nonneg (vertex - 1) (len / np) (by omega) hh,
      cmod_of_nonneg (vertex - 1) (len / np) (by omega) hh, Option.some_bind, Option.some_bind]
    have h1 : 0 ≤ (vertex - 1) / (len / np) := Int.ediv_nonneg (by omega) hh.le
    have h2 : 0 ≤ (vertex - 1) % (len / np) * np :=
      Int.mul_nonneg (Int.emod_nonneg _ hh.ne') hnp.le
    have h3 := transpose_lt (len / np) np (vertex - 1) hh hnp (by omega)
    rw [wrapInt_eq ((vertex - 1) % (len / np) * np) (by omega) (by omega),
      wrapInt_eq ((vertex - 1) / (len / np) + (vertex - 1) % (len / np) * np)
        (by omega) (by omega),
      wrapInt_eq _ (by omega) (by omega)]

/-! ## Range and round trips, stated for `npartitions > 0` -/

theorem fwd_range_of_pos (threads v nsegments len : Int)
    (hnp : 0 < npartitions threads nsegments) (hlmax : len ≤ 2147483647)
    (hv : 1 ≤ v) (hvl : v ≤ len) :
    ∃ w, vertexToNative true threads v nsegments len = some w ∧ 1 ≤ w ∧ w ≤ len := by
  rw [fwd_closed_form threads v nsegments len hnp (by omega) hlmax hv (by omega)]
  generalize npartitions threads nsegments = np at hnp ⊢
  refine ⟨_, rfl, ?_⟩
  split
  · exact ⟨hv, hvl⟩
  · rename_i hlt
    have hx : v - 1 < np * (len / np) := by rw [Int.mul_comm]; omega
    have hh := height_pos_of_lt np len (v - 1) hnp (by omega) (by omega)
    have h1 := transpose_nonneg np (len / np) (v - 1) hnp hh (by omega)
    have h2 := transpose_lt np (len / np) (v - 1) hnp hh hx
    have h3 := height_mul_le np len hnp
    have h4 : np * (len / np) = len / np * np := Int.mul_comm _ _
    constructor <;> omega

theorem inv_range_of_pos (threads w nsegments len : Int)
    (hnp : 0 < npartitions threads nsegments) (hlmax : len ≤ 2147483647)
    (hw : 1 ≤ w) (hwl : w ≤ len) :
    ∃ v, nativeToVertex true threads w nsegments len = some v ∧ 1 ≤ v ∧ v ≤ len := by
  rw [inv_closed_form threads w nsegments len hnp (by omega) hlmax hw (by omega)]
  generalize npartitions threads nsegments = np at hnp ⊢
  refine ⟨_, rfl, ?_⟩
  split
  · exact ⟨hw, hwl⟩
  · rename_i hlt
    have hh := height_pos_of_lt np len (w - 1) hnp (by omega) (by omega)
    have h1 := transpose_nonneg (len / np) np (w - 1) hh hnp (by omega)
    have h2 := transpose_lt (len / np) np (w - 1) hh hnp (by omega)
    have h3 := height_mul_le np len hnp
    constructor <;> omega

theorem inv_fwd_of_pos (threads v nsegments len : Int)
    (hnp : 0 < npartitions threads nsegments) (hlmax : len ≤ 2147483647)
    (hv : 1 ≤ v) (hvl : v ≤ len) :
    (vertexToNative true threads v nsegments len).bind
      (fun w => nativeToVertex true threads w nsegments len) = some v := by
  rw [fwd_closed_form threads v nsegments len hnp (by omega) hlmax hv (by omega),
    Option.some_bind]
  split
  · rename_i hge
    rw [inv_closed_form threads v nsegments len hnp (by omega) hlmax hv (by omega),
      if_pos hge]
  · rename_i hlt
    have hx : v - 1 < npartitions threads nsegments * (len / npartitions threads nsegments) := by
      rw [Int.mul_comm]; omega
    have hh := height_pos_of_lt _ len (v - 1) hnp (by omega) (by omega)
    have h1 := transpose_nonneg (npartitions threads nsegments)
      (len / npartitions threads nsegments) (v - 1) hnp hh (by omega)
    have h2 := transpose_lt (npartitions threads nsegments)
      (len / npartitions threads nsegments) (v - 1) hnp hh hx
    have h3 := transpose_transpose (npartitions threads nsegments)
      (len / npartitions threads nsegments) (v - 1) hnp (by omega) hx
    have h4 : npartitions threads nsegments * (len / npartitions threads nsegments)
        = len / npartitions threads nsegments * npartitions threads nsegments :=
      Int.mul_comm _ _
    have h5 := height_mul_le (npartitions threads nsegments) len hnp
    rw [inv_closed_form threads _ nsegments len hnp (by omega) hlmax (by omega) (by omega),
      if_neg (by omega), Int.add_sub_cancel, h3]
    congr 1
    omega

theorem fwd_inv_of_pos (threads w nsegments len : Int)
    (hnp : 0 < npartitions threads nsegments) (hlmax : len ≤ 2147483647)
    (hw : 1 ≤ w) (hwl : w ≤ len) :
    (nativeToVertex true threads w nsegments len).bind
      (fun v => vertexToNative true threads v nsegments len) = some w := by
  rw [inv_closed_form threads w nsegments len hnp (by omega) hlmax hw (by omega),
    Option.some_bind]
  split
  · rename_i hge
    rw [fwd_closed_form threads w nsegments len hnp (by omega) hlmax hw (by omega),
      if_pos hge]
  · rename_i hlt
    have hh := height_pos_of_lt _ len (w - 1) hnp (by omega) (by omega)
    have h1 := transpose_nonneg (len / npartitions threads nsegments)
      (npartitions threads nsegments) (w - 1) hh hnp (by omega)
    have h2 := transpose_lt (len / npartitions threads nsegments)
      (npartitions threads nsegments) (w - 1) hh hnp (by omega)
    have h3 := transpose_transpose (len / npartitions threads nsegments)
      (npartitions threads nsegments) (w - 1) hh (by omega) (by omega)
    have h5 := height_mul_le (npartitions threads nsegments) len hnp
    rw [fwd_closed_form threads _ nsegments len hnp (by omega) hlmax (by omega) (by omega),
      if_neg (by omega), Int.add_sub_cancel, h3]
    congr 1
    omega

theorem npartitions_pos (threads nsegments : Int) (hp : 1 ≤ threads) (hs : 1 ≤ nsegments)
    (hfit : threads * 16 * nsegments ≤ 2147483647) :
    npartitions threads nsegments = threads * 16 * nsegments ∧
    0 < npartitions threads nsegments := by
  have hpos : 0 < threads * 16 * nsegments :=
    Int.mul_pos (Int.mul_pos (by omega) (by decide)) (by omega)
  have he := npartitions_of_fits threads nsegments (by omega) hfit
  exact ⟨he, by rw [he]; exact hpos⟩

theorem fwd_injective_of_pos (threads nsegments len v1 v2 : Int)
    (hnp : 0 < npartitions threads nsegments) (hlmax : len ≤ 2147483647)
    (h1 : 1 ≤ v1) (h1l : v1 ≤ len) (h2 : 1 ≤ v2) (h2l : v2 ≤ len)
    (heq : vertexToNative true threads v1 nsegments len
      = vertexToNative true threads v2 nsegments len) : v1 = v2 := by
  have e1 := inv_fwd_of_pos threads v1 nsegments len hnp hlmax h1 h1l
  have e2 := inv_fwd_of_pos threads v2 nsegments len hnp hlmax h2 h2l
  rw [heq, e2] at e1
  exact (Option.some.inj e1).symm

theorem fwd_defined (rand : Bool) (threads vertex nsegments len : Int)
    (hnp : rand = true → npartitions threads nsegments ≠ 0) :
    ∃ w, vertexToNative rand threads vertex nsegments len = some w := by
  cases rand with
  | false => exact ⟨vertex, rfl⟩
  | true =>
    have h := hnp rfl
    have h16 := npartitions_mod_sixteen threads nsegments
    have hne : ¬ (npartitions threads nsegments = 0 ∨
        (len = -2147483648 ∧ npartitions threads nsegments = -1)) := by omega
    have hne2 : ¬ (npartitions threads nsegments = 0 ∨
        (wrapInt (vertex - 1) = -2147483648 ∧ npartitions threads nsegments = -1)) := by omega
    simp only [vertexToNative, cdiv, cmod, if_true, if_neg hne, if_neg hne2, Option.some_bind]
    split
    · exact ⟨_, rfl⟩
    · exact ⟨_, rfl⟩

theorem fwd_distinct (rand : Bool) (threads nsegments len u v : Int)
    (hnp : 0 < npartitions threads nsegments) (hlmax : len ≤ 2147483647)
    (hu : 1 ≤ u) (hul : u ≤ len) (hv : 1 ≤ v) (hvl : v ≤ len) (huv : u ≠ v) :
    ∃ un vn, vertexToNative rand threads u nsegments len = some un ∧
      vertexToNative rand threads v nsegments len = some vn ∧ un ≠ vn := by
  cases rand with
  | false => exact ⟨u, v, rfl, rfl, huv⟩
  | true =>
    obtain ⟨un, hun, -, -⟩ := fwd_range_of_pos threads u nsegments len hnp hlmax hu hul
    obtain ⟨vn, hvn, -, -⟩ := fwd_range_of_pos threads v nsegments len hnp hlmax hv hvl
    refine ⟨un, vn, hun, hvn, fun h => huv ?_⟩
    exact fwd_injective_of_pos threads nsegments len u v hnp hlmax hu hul hv hvl
      (by rw [hun, hvn, h])

theorem fwd_of_len_neg (threads vertex nsegments len : Int)
    (hnp : 0 < npartitions threads nsegments) (hlen : len < 0) (hlmin : -2147483648 ≤ len)
    (hv : 1 ≤ vertex) (hvmax : vertex ≤ 2147483647) :
    vertexToNative true threads vertex nsegments len = some vertex := by
  simp only [vertexToNative, if_true, ge_iff_le]
  generalize npartitions threads nsegments = np at hnp ⊢
  have h1 : 0 ≤ (-len).tdiv np := Int.tdiv_nonneg (by omega) hnp.le
  have h2 : len.tdiv np = -((-len).tdiv np) := by
    rw [← Int.neg_tdiv, Int.neg_neg]
  have h3 : len.tdiv np * np ≤ 0 := Int.mul_nonpos_of_nonpos_of_nonneg (by omega) hnp.le
  have h4 : (-len).tdiv np = (-len) / np := Int.tdiv_eq_ediv (by omega) hnp.le
  have h5 := height_mul_le np (-len) hnp
  have h6 : len.tdiv np * np = -((-len) / np * np) := by rw [h2, h4, Int.neg_mul]
  have hcd : cdiv len np = some (len.tdiv np) := by
    unfold cdiv
    rw [if_neg (by omega)]
  rw [hcd, Option.some_bind, wrapInt_eq (vertex - 1) (by omega) (by omega),
    wrapInt_eq (len.tdiv np * np) (by omega) (by omega), if_pos (by omega),
    wrapInt_eq (vertex - 1 + 1) (by omega) (by omega)]
  congr 1
  omega

theorem forwardSpec_of_len_neg (threads vertex nsegments len : Int)
    (hnp : 0 < threads * 16 * nsegments) (hlen : len < 0) (hv : 1 ≤ vertex) :
    forwardSpec threads nsegments len vertex = vertex := by
  have h1 : len / (threads * 16 * nsegments) < 0 := Int.ediv_neg' hlen hnp
  have h3 : len / (threads * 16 * nsegments) * (threads * 16 * nsegments) ≤ 0 :=
    Int.mul_nonpos_of_nonpos_of_nonneg (by omega) hnp.le
  simp only [forwardSpec]
  rw [if_pos (by omega)]

/-! ## Blocks of native ids -/

theorem height_eq_ediv (np len height : Int) (hnp : 0 < np)
    (hcd : cdiv len np = some height) (hh : 1 ≤ height) :
    0 ≤ len ∧ height = len / np ∧ np ≤ len := by
  unfold cdiv at hcd
  rw [if_neg (by omega)] at hcd
  have hcd := Option.some.inj hcd
  have hlen : 0 ≤ len := by
    by_contra hneg
    have h1 : 0 ≤ (-len).tdiv np := Int.tdiv_nonneg (by omega) hnp.le
    have h2 : len.tdiv np = -((-len).tdiv np) := by rw [← Int.neg_tdiv, Int.neg_neg]
    omega
  have he : height = len / np := by rw [← hcd, Int.tdiv_eq_ediv hlen hnp.le]
  refine ⟨hlen, he, ?_⟩
  have h1 := height_mul_le np len hnp
  have h2 : 1 * np ≤ len / np * np := Int.mul_le_mul_of_nonneg_right (by omega) hnp.le
  omega

theorem fwd_covered (threads v nsegments len : Int)
    (hnp : 0 < npartitions threads nsegments) (hlen : 0 ≤ len) (hlmax : len ≤ 2147483647)
    (hv : 1 ≤ v)
    (hvm : v ≤ len / npartitions threads nsegments * npartitions threads nsegments) :
    ∃ w, vertexToNative true threads v nsegments len = some w ∧
      (v - 1) % npartitions threads nsegments * (len / npartitions threads nsegments) < w ∧
      w ≤ ((v - 1) % npartitions threads nsegments + 1)
        * (len / npartitions threads nsegments) := by
  have hm := height_mul_le (npartitions threads nsegments) len hnp
  rw [fwd_closed_form threads v nsegments len hnp hlen hlmax hv (by omega),
    if_neg (by omega)]
  refine ⟨_, rfl, ?_, ?_⟩
  · have h1 : 0 ≤ (v - 1) / npartitions threads nsegments :=
      Int.ediv_nonneg (by omega) hnp.le
    omega
  · have h1 : (v - 1) / npartitions threads nsegments < len / npartitions threads nsegments :=
      Int.ediv_lt_of_lt_mul hnp (by omega)
    rw [Int.add_mul, Int.one_mul]
    omega

theorem block_unique (h b c w : Int) (hh : 0 < h)
    (hb : b * h < w) (hb1 : w ≤ (b + 1) * h) (hc : c * h < w) (hc1 : w ≤ (c + 1) * h) :
    b = c := by
  rcases Int.lt_trichotomy b c with hlt | heq | hgt
  · have : (b + 1) * h ≤ c * h := Int.mul_le_mul_of_nonneg_right (by omega) hh.le
    omega
  · exact heq
  · have : (c + 1) * h ≤ b * h := Int.mul_le_mul_of_nonneg_right (by omega) hh.le
    omega

theorem inNativeBlock_fwd_iff (threads v nsegments len b : Int)
    (hnp : 0 < npartitions threads nsegments) (hlen : 0 ≤ len) (hlmax : len ≤ 2147483647)
    (hh : 0 < len / npartitions threads nsegments) (hv : 1 ≤ v)
    (hvm : v ≤ len / npartitions threads nsegments * npartitions threads nsegments) :
    inNativeBlock (len / npartitions threads nsegments) b
        (vertexToNative true threads v nsegments len) = true
      ↔ (v - 1) % npartitions threads nsegments = b := by
  obtain ⟨w, hw, h1, h2⟩ := fwd_covered threads v nsegments len hnp hlen hlmax hv hvm
  rw [hw]
  simp only [inNativeBlock, decide_eq_true_eq]
  constructor
  · rintro ⟨hb, hb1⟩
    exact block_unique _ _ _ w hh h1 h2 hb hb1
  · intro h
    rw [← h]
    exact ⟨h1, h2⟩

theorem residue_ne_of_offsets (np a i j : Int) (hi : 0 ≤ i) (hil : i < np)
    (hj : 0 ≤ j) (hjl : j < np) (hij : i ≠ j) :
    (a + i - 1) % np ≠ (a + j - 1) % np := by
  intro h
  rcases Int.lt_or_gt_of_ne hij with hlt | hgt
  · have h1 := Int.emod_eq_emod_iff_emod_sub_eq_zero.mp h.symm
    have h2 : a + j - 1 - (a + i - 1) = j - i := by omega
    rw [h2, Int.emod_eq_of_lt (by omega) (by omega)] at h1
    omega
  · have h1 := Int.emod_eq_emod_iff_emod_sub_eq_zero.mp h
    have h2 : a + i - 1 - (a + j - 1) = i - j := by omega
    rw [h2, Int.emod_eq_of_lt (by omega) (by omega)] at h1
    omega

theorem card_residue_class (np h b : Int) (hnp : 0 < np) (hh : 0 ≤ h)
    (hb : 0 ≤ b) (hbl : b < np) :
    (((Finset.Icc 1 (h * np)).filter (fun v : Int => (v - 1) % np = b)).card : Int) = h := by
  have himg : (Finset.Icc 1 (h * np)).filter (fun v : Int => (v - 1) % np = b)
      = (Finset.Ico 0 h).image (fun r : Int => b + r * np + 1) := by
    ext v
    simp only [Finset.mem_filter, Finset.mem_Icc, Finset.mem_image, Finset.mem_Ico]
    constructor
    · rintro ⟨⟨h1, h2⟩, h3⟩
      refine ⟨(v - 1) / np, ⟨Int.ediv_nonneg (by omega) hnp.le,
        Int.ediv_lt_of_lt_mul hnp (by omega)⟩, ?_⟩
      have := Int.emod_add_ediv' (v - 1) np
      omega
    · rintro ⟨r, ⟨hr0, hrl⟩, rfl⟩
      have h1 : 0 ≤ r * np := Int.mul_nonneg hr0 hnp.le
      have h2 : r * np ≤ (h - 1) * np := Int.mul_le_mul_of_nonneg_right (by omega) hnp.le
      have h3 : (h - 1) * np = h * np - np := by ring
      refine ⟨⟨by omega, by omega⟩, ?_⟩
      rw [Int.add_sub_cancel, Int.add_mul_emod_self, Int.emod_eq_of_lt hb hbl]
  have hinj : Function.Injective (fun r : Int => b + r * np + 1) := by
    intro r1 r2 hr
    have h1 : r1 * np = r2 * np := by simpa using hr
    exact Int.eq_of_mul_eq_mul_right hnp.ne' h1
  rw [himg, Finset.card_image_of_injective _ hinj, Int.card_Ico_of_le 0 h hh]
  omega

/-! ## The id mapper: round trips, coverage, reference definition, safety -/

/-- Values of the mappers where the `int` product `1 * 16 * nsegments` leaves the
`int` range: for `nsegments = 2^28` it is 0 and both mappers divide by zero; for
`nsegments = 2^28 + 1` it is 16; for `nsegments = 2^28 - 1` it is `-16`. -/
theorem mapper_values_on_wrapped_npartitions :
    npartitions 1 268435456 = 0 ∧
    vertexToNative true 1 5 268435456 100 = none ∧
    nativeToVertex true 1 5 268435456 100 = none ∧
    npartitions 1 268435457 = 16 ∧
    vertexToNative true 1 5 268435457 100 = some 25 ∧
    npartitions 1 268435455 = -16 ∧
    vertexToNative true 1 2 268435455 100 = some (-5) := by
  decide

/-- C1: with randomization enabled, for every parallelism `threads ≥ 1`, grid
dimension `nsegments ≥ 1` whose product `threads * 16 * nsegments` is an `int`
(so that `npartitions = threads * 16 * nsegments ≥ 1`), every `int` padded count
`len > 0` and every logical id `v` with `1 ≤ v ≤ len`, covered or overflow,
`nativeToVertex (vertexToNative v) = v`. -/
theorem nativeToVertex_vertexToNative_roundtrip (threads nsegments len v : Int)
    (hp : 1 ≤ threads) (hs : 1 ≤ nsegments) (hfit : threads * 16 * nsegments ≤ 2147483647)
    (_hlen : 0 < len) (hlmax : len ≤ 2147483647) (hv : 1 ≤ v) (hvl : v ≤ len) :
    npartitions threads nsegments = threads * 16 * nsegments ∧
    1 ≤ threads * 16 * nsegments ∧
    (vertexToNative true threads v nsegments len).bind
      (fun w => nativeToVertex true threads w nsegments len) = some v := by
  obtain ⟨he, hpos⟩ := npartitions_pos threads nsegments hp hs hfit
  exact ⟨he, by omega, inv_fwd_of_pos threads v nsegments len hpos hlmax hv hvl⟩

/-- Witness for C1 at 1 thread, a 1 × 1 grid (16 partitions), 100 padded ids: the
covered id 2, sent to native id 7, and the overflow id 97. -/
theorem nativeToVertex_vertexToNative_roundtrip_witness :
    (npartitions 1 1 = 1 * 16 * 1 ∧ (1 : Int) ≤ 1 * 16 * 1 ∧
      (vertexToNative true 1 2 1 100).bind (fun w => nativeToVertex true 1 w 1 100) = some 2) ∧
    (npartitions 1 1 = 1 * 16 * 1 ∧ (1 : Int) ≤ 1 * 16 * 1 ∧
      (vertexToNative true 1 97 1 100).bind (fun w => nativeToVertex true 1 w 1 100)
        = some 97) :=
  ⟨nativeToVertex_vertexToNative_roundtrip 1 1 100 2 (by decide) (by decide) (by decide)
      (by decide) (by decide) (by decide) (by decide),
   nativeToVertex_vertexToNative_roundtrip 1 1 100 97 (by decide) (by decide) (by decide)
      (by decide) (by decide) (by decide) (by decide)⟩

/-- C2: with randomization enabled, for every parallelism `threads ≥ 1`, grid
dimension `nsegments ≥ 1` whose product `threads * 16 * nsegments` is an `int`,
every `int` padded count `len > 0` and every native id `w` with `1 ≤ w ≤ len`,
covered or overflow, `vertexToNative (nativeToVertex w) = w`. -/
theorem vertexToNative_nativeToVertex_roundtrip (threads nsegments len w : Int)
    (hp : 1 ≤ threads) (hs : 1 ≤ nsegments) (hfit : threads * 16 * nsegments ≤ 2147483647)
    (_hlen : 0 < len) (hlmax : len ≤ 2147483647) (hw : 1 ≤ w) (hwl : w ≤ len) :
    (nativeToVertex true threads w nsegments len).bind
      (fun v => vertexToNative true threads v nsegments len) = some w :=
  fwd_inv_of_pos threads w nsegments len (npartitions_pos threads nsegments hp hs hfit).2
    hlmax hw hwl

/-- Witness for C2 at 1 thread, a 1 × 1 grid, 100 padded ids: the covered native
id 7 (logical id 2) and the overflow native id 97. -/
theorem vertexToNative_nativeToVertex_roundtrip_witness :
    (nativeToVertex true 1 7 1 100).bind (fun v => vertexToNative true 1 v 1 100) = some 7 ∧
    (nativeToVertex true 1 97 1 100).bind (fun v => vertexToNative true 1 v 1 100) = some 97 :=
  ⟨vertexToNative_nativeToVertex_roundtrip 1 1 100 7 (by decide) (by decide) (by decide)
      (by decide) (by decide) (by decide) (by decide),
   vertexToNative_nativeToVertex_roundtrip 1 1 100 97 (by decide) (by decide) (by decide)
      (by decide) (by decide) (by decide) (by decide)⟩

/-- C3: with randomization enabled, `npartitions ≥ 1` (the value of the `int`
variable the code computes) and an `int` padded count `len > 0`, the image of
`{1, ..., len}` under `vertexToNative` is exactly `{1, ..., len}`: every result
lies in `[1, len]`, distinct logical ids in range have distinct native ids, and
every native id in `[1, len]` is the image of a logical id in range. -/
theorem vertexToNative_image_exact (threads nsegments len : Int)
    (hnp : 1 ≤ npartitions threads nsegments) (_hlen : 0 < len) (hlmax : len ≤ 2147483647) :
    (∀ v, 1 ≤ v → v ≤ len →
      ∃ w, vertexToNative true threads v nsegments len = some w ∧ 1 ≤ w ∧ w ≤ len) ∧
    (∀ v1 v2, 1 ≤ v1 → v1 ≤ len → 1 ≤ v2 → v2 ≤ len →
      vertexToNative true threads v1 nsegments len
        = vertexToNative true threads v2 nsegments len → v1 = v2) ∧
    (∀ w, 1 ≤ w → w ≤ len →
      ∃ v, 1 ≤ v ∧ v ≤ len ∧ vertexToNative true threads v nsegments len = some w) := by
  have hpos : 0 < npartitions threads nsegments := by omega
  refine ⟨fun v hv hvl => fwd_range_of_pos threads v nsegments len hpos hlmax hv hvl,
    fun v1 v2 h1 h1l h2 h2l heq =>
      fwd_injective_of_pos threads nsegments len v1 v2 hpos hlmax h1 h1l h2 h2l heq,
    fun w hw hwl => ?_⟩
  obtain ⟨v, hv, hv1, hvl⟩ := inv_range_of_pos threads w nsegments len hpos hlmax hw hwl
  have h := fwd_inv_of_pos threads w nsegments len hpos hlmax hw hwl
  rw [hv, Option.some_bind] at h
  exact ⟨v, hv1, hvl, h⟩

/-- Witness for C3 at 1 thread, a 1 × 1 grid and 100 padded ids. -/
theorem vertexToNative_image_exact_witness :
    (∀ v : Int, 1 ≤ v → v ≤ 100 →
      ∃ w, vertexToNative true 1 v 1 100 = some w ∧ 1 ≤ w ∧ w ≤ 100) ∧
    (∀ v1 v2 : Int, 1 ≤ v1 → v1 ≤ 100 → 1 ≤ v2 → v2 ≤ 100 →
      vertexToNative true 1 v1 1 100 = vertexToNative true 1 v2 1 100 → v1 = v2) ∧
    (∀ w : Int, 1 ≤ w → w ≤ 100 →
      ∃ v, 1 ≤ v ∧ v ≤ 100 ∧ vertexToNative true 1 v 1 100 = some w) :=
  vertexToNative_image_exact 1 1 100 (by decide) (by decide) (by decide)

/-- C4: with randomization enabled and `npartitions = threads * 16 * nsegments ≥ 1`
an `int`, `vertexToNative` returns, for every `int` padded count and every `int`
id `≥ 1`, the value of the specification's reference definition `forwardSpec`
(the id unchanged when `id - 1 ≥ vmax`, and
`(id-1) div npartitions + ((id-1) mod npartitions) * height + 1` otherwise). For
`len = 100`, `nsegments = 1`, 4 threads: `npartitions = 64`, `height = 1`,
`vmax = 64`, id 10 is sent to 10 and id 70 to 70. -/
theorem vertexToNative_refines_forwardSpec :
    (∀ threads nsegments len id : Int,
      1 ≤ threads * 16 * nsegments → threads * 16 * nsegments ≤ 2147483647 →
      -2147483648 ≤ len → len ≤ 2147483647 → 1 ≤ id → id ≤ 2147483647 →
      vertexToNative true threads id nsegments len
        = some (forwardSpec threads nsegments len id)) ∧
    (npartitions 4 1 = 64 ∧ cdiv 100 (npartitions 4 1) = some 1 ∧
      wrapInt (1 * npartitions 4 1) = 64 ∧
      vertexToNative true 4 10 1 100 = some 10 ∧
      vertexToNative true 4 70 1 100 = some 70) := by
  refine ⟨fun threads nsegments len id hnp hfit hlmin hlmax hid hidmax => ?_, by decide⟩
  have he := npartitions_of_fits threads nsegments (by omega) hfit
  have hpos : 0 < threads * 16 * nsegments := by omega
  have hpos2 : 0 < npartitions threads nsegments := by rw [he]; exact hpos
  rcases Int.lt_or_le len 0 with hlen | hlen
  · rw [fwd_of_len_neg threads id nsegments len hpos2 hlen hlmin hid hidmax,
      forwardSpec_of_len_neg threads id nsegments len hpos hlen hid]
  · rw [fwd_closed_form threads id nsegments len hpos2 hlen hlmax hid hidmax, he]
    rfl

/-- Witness for C4: the covered id 2 on 100 padded ids with 1 thread (native id 7)
and the overflow id 70 with 4 threads. -/
theorem vertexToNative_refines_forwardSpec_witness :
    vertexToNative true 1 2 1 100 = some (forwardSpec 1 1 100 2) ∧
    vertexToNative true 4 70 1 100 = some (forwardSpec 4 1 100 70) :=
  ⟨vertexToNative_refines_forwardSpec.1 1 1 100 2 (by decide) (by decide) (by decide)
      (by decide) (by decide) (by decide),
   vertexToNative_refines_forwardSpec.1 4 1 100 70 (by decide) (by decide) (by decide)
      (by decide) (by decide) (by decide)⟩

/-- C9: under an `int` padded count `len > 0` and `npartitions ≥ 1` (the value of
the `int` variable the code computes), for every id with `1 ≤ id ≤ len` neither
`vertexToNative` nor `nativeToVertex` evaluates a division or modulo by zero
(their result is never `none`); when `height = len / npartitions` is 0,
`nativeToVertex` returns through the overflow short-circuit, so that `v / height`
and `v % height`, which would divide by zero, are not evaluated. -/
theorem mapper_no_division_by_zero (rand : Bool) (threads nsegments len id : Int)
    (hnp : 1 ≤ npartitions threads nsegments) (_hlen : 0 < len) (hlmax : len ≤ 2147483647)
    (hid : 1 ≤ id) (hidl : id ≤ len) :
    vertexToNative rand threads id nsegments len ≠ none ∧
    nativeToVertex rand threads id nsegments len ≠ none ∧
    (cdiv len (npartitions threads nsegments) = some 0 →
      nativeToVertex rand threads id nsegments len = some id ∧
      cdiv (id - 1) 0 = none ∧ cmod (id - 1) 0 = none) := by
  have hpos : 0 < npartitions threads nsegments := by omega
  cases rand with
  | false =>
    refine ⟨by simp [vertexToNative], by simp [nativeToVertex], fun _ => ?_⟩
    exact ⟨rfl, rfl, rfl⟩
  | true =>
    obtain ⟨w, hw, -, -⟩ := fwd_range_of_pos threads id nsegments len hpos hlmax hid hidl
    obtain ⟨u, hu, -, -⟩ := inv_range_of_pos threads id nsegments len hpos hlmax hid hidl
    refine ⟨by rw [hw]; exact Option.some_ne_none w, by rw [hu]; exact Option.some_ne_none u,
      fun hz => ⟨?_, rfl, rfl⟩⟩
    rw [cdiv_of_nonneg len _ (by omega) hpos] at hz
    have hz := Option.some.inj hz
    rw [inv_closed_form threads id nsegments len hpos (by omega) hlmax hid (by omega), hz,
      if_pos (by omega)]

/-- Witness for C9 with `height = 0`: 4 threads, a 1 × 1 grid (64 partitions) and
10 padded ids, id 3. -/
theorem mapper_no_division_by_zero_witness :
    vertexToNative true 4 3 1 10 ≠ none ∧
    nativeToVertex true 4 3 1 10 ≠ none ∧
    (cdiv 10 (npartitions 4 1) = some 0 →
      nativeToVertex true 4 3 1 10 = some 3 ∧
      cdiv (3 - 1) 0 = none ∧ cmod (3 - 1) 0 = none) :=
  mapper_no_division_by_zero true 4 1 10 3 (by decide) (by decide) (by decide) (by decide)
    (by decide)

/-- C8: interleaving across partitions. With randomization enabled,
`npartitions ≥ 1`, an `int` padded count `len` and
`height = len / npartitions ≥ 1` (the value the code computes), every logical id
`v` with `1 ≤ v ≤ vmax = height * npartitions` is sent into the native block
indexed by `(v - 1) mod npartitions`:
`((v-1) mod npartitions) * height < vertexToNative v ≤ ((v-1) mod npartitions + 1) * height`;
of `npartitions` consecutive logical ids at or below `vmax` no two land in the
same block; each block `b` with `0 ≤ b < npartitions` receives exactly `height`
of the logical ids `1, ..., vmax`. -/
theorem vertexToNative_interleaves (threads nsegments len height : Int)
    (hnp : 1 ≤ threads * 16 * nsegments) (hlmax : len ≤ 2147483647)
    (hcd : cdiv len (threads * 16 * nsegments) = some height) (hh : 1 ≤ height) :
    (∀ v, 1 ≤ v → v ≤ height * (threads * 16 * nsegments) →
      ∃ w, vertexToNative true threads v nsegments len = some w ∧
        (v - 1) % (threads * 16 * nsegments) * height < w ∧
        w ≤ ((v - 1) % (threads * 16 * nsegments) + 1) * height) ∧
    (∀ a i j, 1 ≤ a → a + threads * 16 * nsegments - 1 ≤ height * (threads * 16 * nsegments) →
      0 ≤ i → i < threads * 16 * nsegments → 0 ≤ j → j < threads * 16 * nsegments → i ≠ j →
      ∀ b, ¬ (inNativeBlock height b (vertexToNative true threads (a + i) nsegments len) = true ∧
        inNativeBlock height b (vertexToNative true threads (a + j) nsegments len) = true)) ∧
    (∀ b, 0 ≤ b → b < threads * 16 * nsegments →
      (((Finset.Icc 1 (height * (threads * 16 * nsegments))).filter
        (fun v => inNativeBlock height b
          (vertexToNative true threads v nsegments len) = true)).card : Int) = height) := by
  have hpos0 : 0 < threads * 16 * nsegments := by omega
  obtain ⟨hlen, hhe, hle⟩ := height_eq_ediv _ len height hpos0 hcd hh
  have he := npartitions_of_fits threads nsegments (by omega) (by omega)
  subst hhe
  clear hcd
  rw [← he] at hh hnp hpos0 ⊢
  have hpos : 0 < npartitions threads nsegments := hpos0
  refine ⟨fun v hv hvm => fwd_covered threads v nsegments len hpos hlen hlmax hv hvm,
    fun a i j ha hal hi hil hj hjl hij b hboth => ?_, fun b hb hbl => ?_⟩
  · have e1 := (inNativeBlock_fwd_iff threads (a + i) nsegments len b hpos hlen hlmax
      (by omega) (by omega) (by omega)).mp hboth.1
    have e2 := (inNativeBlock_fwd_iff threads (a + j) nsegments len b hpos hlen hlmax
      (by omega) (by omega) (by omega)).mp hboth.2
    exact residue_ne_of_offsets _ a i j hi hil hj hjl hij (by rw [e1, e2])
  · have hfil : (Finset.Icc 1 (len / npartitions threads nsegments
          * npartitions threads nsegments)).filter
          (fun v => inNativeBlock (len / npartitions threads nsegments) b
            (vertexToNative true threads v nsegments len) = true)
        = (Finset.Icc 1 (len / npartitions threads nsegments
          * npartitions threads nsegments)).filter
          (fun v : Int => (v - 1) % npartitions threads nsegments = b) := by
      apply Finset.filter_congr
      intro v hv
      rw [Finset.mem_Icc] at hv
      exact inNativeBlock_fwd_iff threads v nsegments len b hpos hlen hlmax (by omega)
        hv.1 hv.2
    rw [hfil]
    exact card_residue_class (npartitions threads nsegments)
      (len / npartitions threads nsegments) b hpos (by omega) hb hbl

/-- Witness for C8 at 1 thread, a 1 × 1 grid (16 partitions) and 100 padded ids:
`height = 6`, `vmax = 96`. -/
theorem vertexToNative_interleaves_witness :
    (∀ v : Int, 1 ≤ v → v ≤ 6 * (1 * 16 * 1) →
      ∃ w, vertexToNative true 1 v 1 100 = some w ∧
        (v - 1) % (1 * 16 * 1) * 6 < w ∧ w ≤ ((v - 1) % (1 * 16 * 1) + 1) * 6) ∧
    (∀ a i j : Int, 1 ≤ a → a + 1 * 16 * 1 - 1 ≤ 6 * (1 * 16 * 1) →
      0 ≤ i → i < 1 * 16 * 1 → 0 ≤ j → j < 1 * 16 * 1 → i ≠ j →
      ∀ b, ¬ (inNativeBlock 6 b (vertexToNative true 1 (a + i) 1 100) = true ∧
        inNativeBlock 6 b (vertexToNative true 1 (a + j) 1 100) = true)) ∧
    (∀ b : Int, 0 ≤ b → b < 1 * 16 * 1 →
      (((Finset.Icc 1 (6 * (1 * 16 * 1))).filter
        (fun v => inNativeBlock 6 b (vertexToNative true 1 v 1 100) = true)).card : Int) = 6) :=
  vertexToNative_interleaves 1 1 100 6 (by decide) (by decide) (by decide) (by decide)

/-! ## Per-vertex accessors -/

/-- C5: for every graph state, every logical id `v` with `1 ≤ v ≤ nvertices` and
every value `x`, `getVertexproperty v` evaluated right after
`setVertexproperty v x` returns `x`: whenever the write is carried out the read
returns `x`, and the write is carried out whenever the id mapper does not divide
by zero (randomization disabled, or the `int` variable `npartitions` is not 0). -/
theorem getVertexproperty_after_setVertexproperty {V M : Type} (g : Graph V M)
    (threads v : Int) (x : V) (_hv : 1 ≤ v) (_hvl : v ≤ g.nvertices) :
    (∀ g1, setVertexproperty g threads v x = some g1 →
      getVertexproperty g1 threads v = some x) ∧
    ((g.vertexID_randomization = true → npartitions threads g.tiles_per_dim ≠ 0) →
      (setVertexproperty g threads v x).bind (fun g1 => getVertexproperty g1 threads v)
        = some x) := by
  have key : ∀ g1, setVertexproperty g threads v x = some g1 →
      getVertexproperty g1 threads v = some x := by
    intro g1 h
    unfold setVertexproperty at h
    cases hw : vertexToNative g.vertexID_randomization threads v g.tiles_per_dim g.nvertices with
    | none => rw [hw] at h; exact absurd h (by simp)
    | some w =>
      rw [hw, Option.some_bind] at h
      have hg := (Option.some.inj h).symm
      subst hg
      simp [getVertexproperty, hw, SpVec.get, SpVec.set]
  refine ⟨key, fun hnp => ?_⟩
  obtain ⟨w, hw⟩ := fwd_defined g.vertexID_randomization threads v g.tiles_per_dim
    g.nvertices hnp
  have hs : setVertexproperty g threads v x
      = some { g with vertexproperty := g.vertexproperty.set w x } := by
    simp [setVertexproperty, hw]
  rw [hs, Option.some_bind]
  exact key _ hs

/-- Witness for C5 on a graph of 100 vertices with 4 threads (`vmax = 64`): ids 1,
100 (the vertex count), 64 (`vmax`) and 65 (`vmax + 1`). -/
theorem getVertexproperty_after_setVertexproperty_witness :
    ((setVertexproperty sampleGraph100 4 1 7).bind
        (fun g1 => getVertexproperty g1 4 1) = some 7) ∧
    ((setVertexproperty sampleGraph100 4 100 7).bind
        (fun g1 => getVertexproperty g1 4 100) = some 7) ∧
    ((setVertexproperty sampleGraph100 4 64 7).bind
        (fun g1 => getVertexproperty g1 4 64) = some 7) ∧
    ((setVertexproperty sampleGraph100 4 65 7).bind
        (fun g1 => getVertexproperty g1 4 65) = some 7) :=
  ⟨(getVertexproperty_after_setVertexproperty sampleGraph100 4 1 7
      (by decide) (by decide)).2 (by decide),
   (getVertexproperty_after_setVertexproperty sampleGraph100 4 100 7
      (by decide) (by decide)).2 (by decide),
   (getVertexproperty_after_setVertexproperty sampleGraph100 4 64 7
      (by decide) (by decide)).2 (by decide),
   (getVertexproperty_after_setVertexproperty sampleGraph100 4 65 7
      (by decide) (by decide)).2 (by decide)⟩

/-- C6, the claim as stated fails: `sampleGraph200` (200 vertices) takes over the
store of `sampleGraph100` (100 vertices, entry `i` at native id `i`). With 1
thread, logical id 2 is native id 13 for the receiver (`height = 12`) and native
id 7 for the lender (`height = 6`), so the two reads differ. -/
theorem shareVertexProperty_reads_differ :
    getVertexproperty (shareVertexProperty sampleGraph200 sampleGraph100) 1 2 = some 13 ∧
    getVertexproperty sampleGraph100 1 2 = some 7 ∧
    getVertexproperty (shareVertexProperty sampleGraph200 sampleGraph100) 1 2
      ≠ getVertexproperty sampleGraph100 1 2 := by
  decide

/-- C6 (amended): for graphs `g2`, `g1` with the same randomization flag and, when
randomization is enabled, the same `tiles_per_dim` and `nvertices`, after
`g2.shareVertexProperty(g1)` the call `g2.getVertexproperty(v)` returns what
`g1.getVertexproperty(v)` returns, for every logical id `v` (a value, whenever
randomization is disabled or the `int` variable `npartitions` is not 0); the
ownership flag of `g2` is 0; `nvertices`,
`nnz`, `tiles_per_dim`, the randomization flag and the active store of `g2` are
left as they were. -/
theorem shareVertexProperty_same_geometry {V M : Type} (g2 g1 : Graph V M) (threads v : Int)
    (hr : g2.vertexID_randomization = g1.vertexID_randomization)
    (hgeo : g1.vertexID_randomization = true →
      g2.tiles_per_dim = g1.tiles_per_dim ∧ g2.nvertices = g1.nvertices) :
    getVertexproperty (shareVertexProperty g2 g1) threads v = getVertexproperty g1 threads v ∧
    ((g1.vertexID_randomization = true → npartitions threads g1.tiles_per_dim ≠ 0) →
      ∃ x, getVertexproperty (shareVertexProperty g2 g1) threads v = some x ∧
        getVertexproperty g1 threads v = some x) ∧
    (shareVertexProperty g2 g1).vertexpropertyowner = 0 ∧
    (shareVertexProperty g2 g1).nvertices = g2.nvertices ∧
    (shareVertexProperty g2 g1).nnz = g2.nnz ∧
    (shareVertexProperty g2 g1).tiles_per_dim = g2.tiles_per_dim ∧
    (shareVertexProperty g2 g1).vertexID_randomization = g2.vertexID_randomization ∧
    (shareVertexProperty g2 g1).active = g2.active := by
  have hmap : vertexToNative g2.vertexID_randomization threads v g2.tiles_per_dim g2.nvertices
      = vertexToNative g1.vertexID_randomization threads v g1.tiles_per_dim g1.nvertices := by
    rw [hr]
    cases hb : g1.vertexID_randomization with
    | false => rfl
    | true => rw [(hgeo hb).1, (hgeo hb).2]
  have heq : getVertexproperty (shareVertexProperty g2 g1) threads v
      = getVertexproperty g1 threads v := by
    simp only [getVertexproperty, shareVertexProperty, hmap]
  refine ⟨heq, fun hnp => ?_, rfl, rfl, rfl, rfl, rfl, rfl⟩
  obtain ⟨w, hw⟩ := fwd_defined g1.vertexID_randomization threads v g1.tiles_per_dim
    g1.nvertices hnp
  refine ⟨g1.vertexproperty.get w, ?_, ?_⟩
  · rw [heq]; simp [getVertexproperty, hw]
  · simp [getVertexproperty, hw]

/-- Witness for C6 (amended): `sampleGraph200` cut down to 100 vertices takes over
the store of `sampleGraph100`. -/
theorem shareVertexProperty_same_geometry_witness :
    getVertexproperty
        (shareVertexProperty { sampleGraph200 with nvertices := 100 } sampleGraph100) 1 2
      = getVertexproperty sampleGraph100 1 2 ∧
    (shareVertexProperty { sampleGraph200 with nvertices := 100 }
      sampleGraph100).vertexpropertyowner = 0 :=
  have h := shareVertexProperty_same_geometry { sampleGraph200 with nvertices := 100 }
    sampleGraph100 1 2 (by decide) (by decide)
  ⟨h.1, h.2.2.1⟩

/-- C7, the claim as stated fails: with randomization enabled, 100 padded ids and a
1 × 1 grid, id 2 is mapped to 7 (forward) and 17 (inverse) when
`omp_get_max_threads()` is 1, and to 2 (both ways) when it is 4. -/
theorem mapper_depends_on_threads :
    vertexToNative true 1 2 1 100 = some 7 ∧ vertexToNative true 4 2 1 100 = some 2 ∧
    nativeToVertex true 1 2 1 100 = some 17 ∧ nativeToVertex true 4 2 1 100 = some 2 ∧
    ¬ (∀ (rand : Bool) (p1 p2 id nsegments len : Int),
        vertexToNative rand p1 id nsegments len = vertexToNative rand p2 id nsegments len ∧
        nativeToVertex rand p1 id nsegments len = nativeToVertex rand p2 id nsegments len) := by
  refine ⟨by decide, by decide, by decide, by decide, fun h => ?_⟩
  exact absurd (h true 1 4 2 1 100).1 (by decide)

/-- C7 (amended): the results of `vertexToNative` and `nativeToVertex` depend on the
value of `omp_get_max_threads()` in effect at the call only through
`npartitions = threads * 16 * nsegments`: two calls with the same id, grid
dimension and padded count return the same result whenever randomization is
disabled or the two thread counts give the same `npartitions` (in particular
when they are equal). -/
theorem mapper_same_of_equal_npartitions (rand : Bool) (p1 p2 id nsegments len : Int)
    (h : rand = false ∨ p1 * 16 * nsegments = p2 * 16 * nsegments) :
    vertexToNative rand p1 id nsegments len = vertexToNative rand p2 id nsegments len ∧
    nativeToVertex rand p1 id nsegments len = nativeToVertex rand p2 id nsegments len := by
  rcases h with h | h
  · subst h
    exact ⟨rfl, rfl⟩
  · have hn : npartitions p1 nsegments = npartitions p2 nsegments := by
      rw [npartitions_eq_wrap, npartitions_eq_wrap, h]
    simp only [vertexToNative, nativeToVertex, hn, and_self]

/-- Witness for C7 (amended): randomization disabled with 1 thread against 4
threads, and randomization enabled with 4 threads at both calls. -/
theorem mapper_same_of_equal_npartitions_witness :
    (vertexToNative false 1 2 1 100 = vertexToNative false 4 2 1 100 ∧
      nativeToVertex false 1 2 1 100 = nativeToVertex false 4 2 1 100) ∧
    (vertexToNative true 4 2 1 100 = vertexToNative true 4 2 1 100 ∧
      nativeToVertex true 4 2 1 100 = nativeToVertex true 4 2 1 100) :=
  ⟨mapper_same_of_equal_npartitions false 1 4 2 1 100 (Or.inl rfl),
   mapper_same_of_equal_npartitions true 4 4 2 1 100 (Or.inr (by decide))⟩

/-- C10: single-vertex writes do not interfere. For every graph state with an
`int` vertex count `nvertices > 0` and `npartitions ≥ 1` (the value of the `int`
variable the code computes), distinct logical ids `u ≠ v` in
`[1, nvertices]` and every value `x`: `getVertexproperty u` returns the same
value after `setVertexproperty v x` as before; `setActive v` and `setInactive v`
leave the active flag of `u` (the entry of the active store at the native id of
`u`) unchanged; none of the three changes `nvertices`, `nnz`, `tiles_per_dim`,
the ownership flag or the randomization flag. -/
theorem single_vertex_writes_frame {V M : Type} (g : Graph V M) (threads u v : Int) (x : V)
    (_hn : 0 < g.nvertices) (hnmax : g.nvertices ≤ 2147483647)
    (hnp : 1 ≤ npartitions threads g.tiles_per_dim)
    (hu : 1 ≤ u) (hul : u ≤ g.nvertices) (hv : 1 ≤ v) (hvl : v ≤ g.nvertices)
    (huv : u ≠ v) :
    (∃ g1 y, setVertexproperty g threads v x = some g1 ∧
      getVertexproperty g threads u = some y ∧ getVertexproperty g1 threads u = some y ∧
      g1.nvertices = g.nvertices ∧ g1.nnz = g.nnz ∧ g1.tiles_per_dim = g.tiles_per_dim ∧
      g1.vertexpropertyowner = g.vertexpropertyowner ∧
      g1.vertexID_randomization = g.vertexID_randomization) ∧
    (∃ g1 un, setActive g threads v = some g1 ∧
      vertexToNative g.vertexID_randomization threads u g.tiles_per_dim g.nvertices = some un ∧
      g1.active.get un = g.active.get un ∧
      g1.nvertices = g.nvertices ∧ g1.nnz = g.nnz ∧ g1.tiles_per_dim = g.tiles_per_dim ∧
      g1.vertexpropertyowner = g.vertexpropertyowner ∧
      g1.vertexID_randomization = g.vertexID_randomization) ∧
    (∃ g1 un, setInactive g threads v = some g1 ∧
      vertexToNative g.vertexID_randomization threads u g.tiles_per_dim g.nvertices = some un ∧
      g1.active.get un = g.active.get un ∧
      g1.nvertices = g.nvertices ∧ g1.nnz = g.nnz ∧ g1.tiles_per_dim = g.tiles_per_dim ∧
      g1.vertexpropertyowner = g.vertexpropertyowner ∧
      g1.vertexID_randomization = g.vertexID_randomization) := by
  obtain ⟨un, vn, hun, hvn, hne⟩ := fwd_distinct g.vertexID_randomization threads
    g.tiles_per_dim g.nvertices u v (by omega) hnmax hu hul hv hvl huv
  refine ⟨⟨{ g with vertexproperty := g.vertexproperty.set vn x }, g.vertexproperty.get un,
      ?_, ?_, ?_, rfl, rfl, rfl, rfl, rfl⟩,
    ⟨{ g with active := g.active.set vn true }, un, ?_, hun, ?_, rfl, rfl, rfl, rfl, rfl⟩,
    ⟨{ g with active := g.active.set vn false }, un, ?_, hun, ?_, rfl, rfl, rfl, rfl, rfl⟩⟩
  · simp [setVertexproperty, hvn]
  · simp [getVertexproperty, hun]
  · simp [getVertexproperty, hun, SpVec.get, SpVec.set, hne]
  · simp [setActive, hvn]
  · simp [SpVec.get, SpVec.set, hne]
  · simp [setInactive, hvn]
  · simp [SpVec.get, SpVec.set, hne]

/-- Witness for C10 on a graph of 100 vertices with 1 thread: writes at logical id
3 observed from logical id 2. -/
theorem single_vertex_writes_frame_witness :
    (∃ g1 y, setVertexproperty sampleGraph100 1 3 55 = some g1 ∧
      getVertexproperty sampleGraph100 1 2 = some y ∧ getVertexproperty g1 1 2 = some y ∧
      g1.nvertices = sampleGraph100.nvertices ∧ g1.nnz = sampleGraph100.nnz ∧
      g1.tiles_per_dim = sampleGraph100.tiles_per_dim ∧
      g1.vertexpropertyowner = sampleGraph100.vertexpropertyowner ∧
      g1.vertexID_randomization = sampleGraph100.vertexID_randomization) ∧
    (∃ g1 un, setActive sampleGraph100 1 3 = some g1 ∧
      vertexToNative sampleGraph100.vertexID_randomization 1 2 sampleGraph100.tiles_per_dim
        sampleGraph100.nvertices = some un ∧
      g1.active.get un = sampleGraph100.active.get un ∧
      g1.nvertices = sampleGraph100.nvertices ∧ g1.nnz = sampleGraph100.nnz ∧
      g1.tiles_per_dim = sampleGraph100.tiles_per_dim ∧
      g1.vertexpropertyowner = sampleGraph100.vertexpropertyowner ∧
      g1.vertexID_randomization = sampleGraph100.vertexID_randomization) ∧
    (∃ g1 un, setInactive sampleGraph100 1 3 = some g1 ∧
      vertexToNative sampleGraph100.vertexID_randomization 1 2 sampleGraph100.tiles_per_dim
        sampleGraph100.nvertices = some un ∧
      g1.active.get un = sampleGraph100.active.get un ∧
      g1.nvertices = sampleGraph100.nvertices ∧ g1.nnz = sampleGraph100.nnz ∧
      g1.tiles_per_dim = sampleGraph100.tiles_per_dim ∧
      g1.vertexpropertyowner = sampleGraph100.vertexpropertyowner ∧
      g1.vertexID_randomization = sampleGraph100.vertexID_randomization) :=
  single_vertex_writes_frame sampleGraph100 1 2 3 55 (by decide) (by decide) (by decide)
    (by decide) (by decide) (by decide) (by decide) (by decide)

end GraphMat
